import Mathlib

set_option maxRecDepth 100000

/-!
Verification of the Cyclist duplex construction (the `cyclist` crate).

The Rust source is shallowly embedded.  Permutation states are lists of
bytes (`Nat` values below 256), machine integers are `Nat` with explicit
wrap-around (`% 2 ^ 32` / `% 2 ^ 64`) wherever the source relies on
fixed-width behaviour, and panicking constructors return `Option`.
-/

/-- Fuel-driven worker for `chunks`; the fuel is an upper bound on the
list length, which makes the recursion structural (and hence
kernel-reducible). -/
def chunksAux {α : Type} : Nat → List α → Nat → List (List α)
  | _, [], _ => []
  | _, _, 0 => []
  | 0, _, _ => []
  | fuel + 1, l, r => l.take r :: chunksAux fuel (l.drop r) r

/-- Splits a list into consecutive chunks of `r` elements each, the final
chunk possibly shorter, mirroring the Rust `slice::chunks` method: an empty slice
yields no chunks.  A chunk size of zero panics in Rust; here it yields no
chunks (all theorems that touch this case either assume `0 < r` or derive
it). -/
def chunks {α : Type} (l : List α) (r : Nat) : List (List α) :=
  chunksAux l.length l r

/-- The fuel argument of `chunksAux` is irrelevant as long as it bounds
the list length. -/
theorem chunksAux_congr {α : Type} :
    ∀ (f1 f2 : Nat) (l : List α) (r : Nat), l.length ≤ f1 → l.length ≤ f2 →
      chunksAux f1 l r = chunksAux f2 l r
  | f1, f2, [], r, _, _ => by cases f1 <;> cases f2 <;> cases r <;> rfl
  | 0, _, a :: l, _, h1, _ => by simp only [List.length_cons] at h1; omega
  | _ + 1, 0, a :: l, _, _, h2 => by simp only [List.length_cons] at h2; omega
  | f1 + 1, f2 + 1, a :: l, 0, _, _ => rfl
  | f1 + 1, f2 + 1, a :: l, r + 1, h1, h2 => by
    simp only [chunksAux]
    refine congrArg _ (chunksAux_congr f1 f2 _ _ ?_ ?_) <;>
      · simp only [List.length_drop, List.length_cons] at h1 h2 ⊢
        omega

/-- The defining recurrence of `chunks`. -/
theorem chunks_eq {α : Type} (l : List α) (r : Nat) :
    chunks l r =
      if l.length = 0 ∨ r = 0 then [] else l.take r :: chunks (l.drop r) r := by
  match l, r with
  | [], r => cases r <;> rfl
  | a :: l, 0 => rfl
  | a :: l, r + 1 =>
    simp only [chunks, List.length_cons, chunksAux]
    rw [if_neg (by omega)]
    refine congrArg _ (chunksAux_congr _ _ _ _ ?_ ?_) <;>
      · simp only [List.length_drop, List.length_cons]
        omega

/-- Compile-time parameters of `CyclistCore` (plus the keyed facade
parameter `TAG_LEN`): the permutation, its byte width, the `KEYED` flag and the
absorb/squeeze/ratchet rates. -/
structure Params where
  perm : List Nat → List Nat
  width : Nat
  keyed : Bool
  absorbRate : Nat
  squeezeRate : Nat
  ratchetRate : Nat
  tagLen : Nat

/-- The runtime state of `CyclistCore`: the permutation state and the
phase flag `up`. -/
structure Engine where
  state : List Nat
  up : Bool
  deriving DecidableEq, Repr

/-- `Permutation::add_byte`: XORs `byte` into the state at offset `off`
(the offset is in bounds in every use in the source). -/
def add_byte (s : List Nat) (byte off : Nat) : List Nat :=
  s.set off (s.getD off 0 ^^^ byte)

/-- `Permutation::add_bytes`: XORs `bytes` into the beginning of the
state, stopping at the shorter of the two (Rust zips the two iterators). -/
def add_bytes (s bytes : List Nat) : List Nat :=
  List.zipWith (fun a b => a ^^^ b) s bytes ++ s.drop bytes.length

/-- `CyclistCore::up`: in keyed mode XOR `cu` into the last state byte,
permute, set the phase flag, and extract a prefix of `n` bytes when an
output block of length `n` is requested (`[]` for `None`). -/
def up (P : Params) (e : Engine) (outLen : Option Nat) (cu : Nat) : Engine × List Nat :=
  let s0 := if P.keyed then add_byte e.state cu (P.width - 1) else e.state
  let s1 := P.perm s0
  match outLen with
  | none => (⟨s1, true⟩, [])
  | some n => (⟨s1, true⟩, s1.take n)

/-- `CyclistCore::down`: XOR the optional input block plus a `0x01`
padding byte into the state prefix, XOR the (masked, when unkeyed) domain
byte into the last state byte, and clear the phase flag. -/
def down (P : Params) (e : Engine) (bin : Option (List Nat)) (cd : Nat) : Engine :=
  let s0 := match bin with
    | some b => add_byte (add_bytes e.state b) 1 b.length
    | none => add_byte e.state 1 0
  ⟨add_byte s0 (if P.keyed then cd else cd &&& 0x01) (P.width - 1), false⟩

/-- The loop body shared by `absorb_any` and `absorb_more`:
`self.up(None, 0x00); self.down(Some(chunk), 0x00)`. -/
def absorb_step (P : Params) (acc : Engine) (chunk : List Nat) : Engine :=
  down P (up P acc none 0x00).1 (some chunk) 0x00

/-- `CyclistCore::absorb_any`: transition out of a pending DOWN phase if
needed, feed the first chunk with the domain byte `cd`, then the remaining
chunks with domain byte zero. -/
def absorb_any (P : Params) (e : Engine) (bin : List Nat) (rate cd : Nat) : Engine :=
  let e1 := if e.up then e else (up P e none 0x00).1
  match chunks bin rate with
  | [] => down P e1 none cd
  | c :: rest => rest.foldl (absorb_step P) (down P e1 (some c) cd)

/-- `CyclistCore::absorb`. -/
def absorb (P : Params) (e : Engine) (bin : List Nat) : Engine :=
  absorb_any P e bin P.absorbRate 0x03

/-- `CyclistCore::absorb_more`: every chunk is treated as a continuation
chunk (unconditional UP, domain byte zero). -/
def absorb_more (P : Params) (e : Engine) (bin : List Nat) : Engine :=
  (chunks bin P.absorbRate).foldl (absorb_step P) e

/-- The continuation chunks of `CyclistCore::squeeze_any`
(`self.down(None, 0x00); self.up(Some(chunk), 0x00)` per chunk), which is
also exactly `squeeze_more_mut`. -/
def squeeze_rest (P : Params) (e : Engine) (n : Nat) : Engine × List Nat :=
  if h : n = 0 ∨ P.squeezeRate = 0 then (e, [])
  else
    let r := up P (down P e none 0x00) (some (min P.squeezeRate n)) 0x00
    let r2 := squeeze_rest P r.1 (n - P.squeezeRate)
    (r2.1, r.2 ++ r2.2)
termination_by n
decreasing_by
  push_neg at h
  have h2 := h.2
  omega

/-- `CyclistCore::squeeze_any`: the first chunk receives the domain byte
`cu`; note that an empty output still triggers one `up(None, cu)` call. -/
def squeeze_any (P : Params) (e : Engine) (n cu : Nat) : Engine × List Nat :=
  if n = 0 ∨ P.squeezeRate = 0 then ((up P e none cu).1, [])
  else
    let r := up P e (some (min P.squeezeRate n)) cu
    let r2 := squeeze_rest P r.1 (n - P.squeezeRate)
    (r2.1, r.2 ++ r2.2)

/-- `CyclistCore::squeeze_mut`. -/
def squeeze_mut (P : Params) (e : Engine) (n : Nat) : Engine × List Nat :=
  squeeze_any P e n 0x40

/-- `CyclistCore::squeeze_key_mut`. -/
def squeeze_key_mut (P : Params) (e : Engine) (n : Nat) : Engine × List Nat :=
  squeeze_any P e n 0x20

/-- `CyclistKeyed::encrypt_mut`, chunk loop: per `SQUEEZE_RATE`-sized
chunk of plaintext, squeeze a full-rate keystream block via UP, absorb the
plaintext chunk via DOWN, and XOR the keystream into the chunk. -/
def encrypt_chunks (P : Params) (e : Engine) (bin : List Nat) (cu : Nat) : Engine × List Nat :=
  if h : bin = [] ∨ P.squeezeRate = 0 then (e, [])
  else
    let p := bin.take P.squeezeRate
    let r := up P e (some P.squeezeRate) cu
    let e2 := down P r.1 (some p) 0x00
    let r2 := encrypt_chunks P e2 (bin.drop P.squeezeRate) 0x00
    (r2.1, List.zipWith (fun x k => x ^^^ k) p r.2 ++ r2.2)
termination_by bin.length
decreasing_by
  push_neg at h
  have h1 : 0 < bin.length := List.length_pos.mpr h.1
  have h2 := h.2
  simp only [List.length_drop]
  omega

/-- `CyclistKeyed::decrypt_mut`, chunk loop: as for encryption but the
XOR happens before the DOWN, so the state absorbs the recovered
plaintext. -/
def decrypt_chunks (P : Params) (e : Engine) (bin : List Nat) (cu : Nat) : Engine × List Nat :=
  if h : bin = [] ∨ P.squeezeRate = 0 then (e, [])
  else
    let c := bin.take P.squeezeRate
    let r := up P e (some P.squeezeRate) cu
    let p := List.zipWith (fun x k => x ^^^ k) c r.2
    let e2 := down P r.1 (some p) 0x00
    let r2 := decrypt_chunks P e2 (bin.drop P.squeezeRate) 0x00
    (r2.1, p ++ r2.2)
termination_by bin.length
decreasing_by
  push_neg at h
  have h1 : 0 < bin.length := List.length_pos.mpr h.1
  have h2 := h.2
  simp only [List.length_drop]
  omega

/-- `CyclistKeyed::encrypt_mut` (the UP domain byte of the first chunk is
`0x80`). -/
def encrypt_mut (P : Params) (e : Engine) (bin : List Nat) : Engine × List Nat :=
  encrypt_chunks P e bin 0x80

/-- `CyclistKeyed::decrypt_mut`. -/
def decrypt_mut (P : Params) (e : Engine) (bin : List Nat) : Engine × List Nat :=
  decrypt_chunks P e bin 0x80

/-- `CyclistKeyed::seal_mut`: encrypt the leading `len - TAG_LEN` bytes
and overwrite the trailing `TAG_LEN` bytes with a squeezed tag. -/
def seal_mut (P : Params) (e : Engine) (in_out : List Nat) : Engine × List Nat :=
  let n := in_out.length - P.tagLen
  let r1 := encrypt_mut P e (in_out.take n)
  let r2 := squeeze_mut P r1.1 P.tagLen
  (r2.1, r1.2 ++ r2.2)

/-- `CyclistKeyed::seal`: copy the message into a buffer `TAG_LEN` bytes
longer, then `seal_mut`. -/
def seal_vec (P : Params) (e : Engine) (bin : List Nat) : Engine × List Nat :=
  seal_mut P e (bin ++ List.replicate P.tagLen 0)

/-- `CyclistKeyed::open_mut`: decrypt the leading `len - TAG_LEN` bytes,
squeeze a counterfactual tag, and compare it with the trailing bytes
(`constant_time_eq` is byte-string equality); on mismatch the plaintext
region is zero-filled and `false` is returned. -/
def open_mut (P : Params) (e : Engine) (in_out : List Nat) : Engine × List Nat × Bool :=
  let n := in_out.length - P.tagLen
  let tag := in_out.drop n
  let r1 := decrypt_mut P e (in_out.take n)
  let r2 := squeeze_mut P r1.1 P.tagLen
  if tag = r2.2 then (r2.1, r1.2 ++ tag, true)
  else (r2.1, List.replicate n 0 ++ tag, false)

/-- `CyclistKeyed::open`: `open_mut` on a copy; on success the plaintext
prefix is returned. -/
def open_vec (P : Params) (e : Engine) (bin : List Nat) : Engine × Option (List Nat) :=
  let r := open_mut P e bin
  (r.1, if r.2.2 then some (r.2.1.take (bin.length - P.tagLen)) else none)

/-- `CyclistCore::new`: the all-zero state with the phase flag set, after
the construction-time guard `max(ABSORB_RATE, SQUEEZE_RATE) + 2 <= WIDTH`
(a `debug_assert!`, modelled with its checked semantics: `none` is a
panic). -/
def core_new (P : Params) : Option Engine :=
  if max P.absorbRate P.squeezeRate + 2 ≤ P.width then
    some ⟨List.replicate P.width 0, true⟩
  else none

/-- `CyclistHash::default`: a core engine with `KEYED = false` and both
rates equal to the hash rate. -/
def hash_default (perm : List Nat → List Nat) (width hashRate : Nat) : Option Engine :=
  core_new ⟨perm, width, false, hashRate, hashRate, 0, 0⟩

/-- `CyclistKeyed::new`: after the core guard, assert
`key.len() + key_id.len() <= ABSORB_RATE - 1`, build the initial vector
`key || key_id || [key_id.len() as u8]` (the `try_into` conversion panics
when the key ID is longer than 255 bytes), absorb it at the full absorb
rate with domain byte `0x02`, and trickle a non-empty counter in one byte
at a time with domain byte `0x00`.  `none` models a panic. -/
def keyed_new_checked (P : Params) (key key_id counter : List Nat) (e0 : Engine) :
    Option Engine :=
  if key.length + key_id.length ≤ P.absorbRate - 1 then
    if key_id.length ≤ 255 then
      let iv := key ++ key_id ++ [key_id.length]
      let e1 := absorb_any P e0 iv P.absorbRate 0x02
      some (if counter = [] then e1 else absorb_any P e1 counter 1 0x00)
    else none
  else none

/-- `CyclistKeyed::new` (see `keyed_new_checked` for the body after the
core constructor). -/
def keyed_new (P : Params) (key key_id counter : List Nat) : Option Engine :=
  match core_new P with
  | none => none
  | some e0 => keyed_new_checked P key key_id counter e0

/-! ## The Xoodoo permutation (`src/xoodoo.rs`) -/

/-- `u32::rotate_left` on a value below `2 ^ 32`. -/
def rotl32 (x n : Nat) : Nat :=
  ((x <<< n) ||| (x >>> (32 - n))) % 4294967296

/-- Bitwise complement on 32-bit words (Rust `!x`). -/
def not32 (x : Nat) : Nat :=
  4294967295 ^^^ x

/-- The 12-entry Xoodoo round-key table. -/
def XOODOO_ROUND_KEYS : List Nat :=
  [0x00000058, 0x00000038, 0x000003C0, 0x000000D0, 0x00000120, 0x00000014,
   0x00000060, 0x0000002C, 0x00000380, 0x000000F0, 0x000001A0, 0x00000012]

/-- One round of `XoodooP::permute`: the loop body of the source, with the
twelve lanes loaded from the lane list (as registers `st00 .. st11`). -/
def xoodoo_round (st : List Nat) (round_key : Nat) : List Nat :=
  let st00 := st.getD 0 0
  let st01 := st.getD 1 0
  let st02 := st.getD 2 0
  let st03 := st.getD 3 0
  let st04 := st.getD 4 0
  let st05 := st.getD 5 0
  let st06 := st.getD 6 0
  let st07 := st.getD 7 0
  let st08 := st.getD 8 0
  let st09 := st.getD 9 0
  let st10 := st.getD 10 0
  let st11 := st.getD 11 0
  let p0 := st00 ^^^ st04 ^^^ st08
  let p1 := st01 ^^^ st05 ^^^ st09
  let p2 := st02 ^^^ st06 ^^^ st10
  let p3 := st03 ^^^ st07 ^^^ st11
  let e0 := rotl32 p3 5 ^^^ rotl32 p3 14
  let e1 := rotl32 p0 5 ^^^ rotl32 p0 14
  let e2 := rotl32 p1 5 ^^^ rotl32 p1 14
  let e3 := rotl32 p2 5 ^^^ rotl32 p2 14
  let tmp0 := e0 ^^^ st00 ^^^ round_key
  let tmp1 := e1 ^^^ st01
  let tmp2 := e2 ^^^ st02
  let tmp3 := e3 ^^^ st03
  let tmp4 := e3 ^^^ st07
  let tmp5 := e0 ^^^ st04
  let tmp6 := e1 ^^^ st05
  let tmp7 := e2 ^^^ st06
  let tmp8 := rotl32 (e0 ^^^ st08) 11
  let tmp9 := rotl32 (e1 ^^^ st09) 11
  let tmp10 := rotl32 (e2 ^^^ st10) 11
  let tmp11 := rotl32 (e3 ^^^ st11) 11
  let n00 := (not32 tmp4 &&& tmp8) ^^^ tmp0
  let n01 := (not32 tmp5 &&& tmp9) ^^^ tmp1
  let n02 := (not32 tmp6 &&& tmp10) ^^^ tmp2
  let n03 := (not32 tmp7 &&& tmp11) ^^^ tmp3
  let n04 := rotl32 ((not32 tmp8 &&& tmp0) ^^^ tmp4) 1
  let n05 := rotl32 ((not32 tmp9 &&& tmp1) ^^^ tmp5) 1
  let n06 := rotl32 ((not32 tmp10 &&& tmp2) ^^^ tmp6) 1
  let n07 := rotl32 ((not32 tmp11 &&& tmp3) ^^^ tmp7) 1
  let n08 := rotl32 ((not32 tmp2 &&& tmp6) ^^^ tmp10) 8
  let n09 := rotl32 ((not32 tmp3 &&& tmp7) ^^^ tmp11) 8
  let n10 := rotl32 ((not32 tmp0 &&& tmp4) ^^^ tmp8) 8
  let n11 := rotl32 ((not32 tmp1 &&& tmp5) ^^^ tmp9) 8
  [n00, n01, n02, n03, n04, n05, n06, n07, n08, n09, n10, n11]

/-- `LittleEndian::read_u32_into`: the twelve little-endian 32-bit lanes
of a 48-byte state. -/
def bytes_to_lanes32 (s : List Nat) : List Nat :=
  (List.range 12).map (fun i =>
    s.getD (4 * i) 0 ||| (s.getD (4 * i + 1) 0 <<< 8) |||
      (s.getD (4 * i + 2) 0 <<< 16) ||| (s.getD (4 * i + 3) 0 <<< 24))

/-- The four little-endian bytes of a 32-bit lane. -/
def lane_to_bytes32 (x : Nat) : List Nat :=
  [x % 256, (x >>> 8) % 256, (x >>> 16) % 256, (x >>> 24) % 256]

/-- `LittleEndian::write_u32_into`. -/
def lanes_to_bytes32 (ls : List Nat) : List Nat :=
  (ls.map lane_to_bytes32).flatten

/-- `XoodooP::<R>::permute`: convert to lanes, run the last `R` rounds of
the round-key table, convert back. -/
def xoodoo_permute (R : Nat) (s : List Nat) : List Nat :=
  lanes_to_bytes32 ((XOODOO_ROUND_KEYS.drop (12 - R)).foldl xoodoo_round (bytes_to_lanes32 s))

/-- `XoodyakHash`: `CyclistHash<Xoodoo, 48, 16>`. -/
def xoodyakHashP : Params :=
  ⟨xoodoo_permute 12, 48, false, 16, 16, 0, 0⟩

/-- `XoodyakKeyed`: `CyclistKeyed<Xoodoo, 48, 44, 24, 16, 16>`. -/
def xoodyakKeyedP : Params :=
  ⟨xoodoo_permute 12, 48, true, 44, 24, 16, 16⟩

/-! ## The Keccak-p[1600] permutation, fused implementation (`src/keccak.rs`) -/

/-- `u64::rotate_left` on a value below `2 ^ 64`. -/
def rotl64 (x n : Nat) : Nat :=
  ((x <<< n) ||| (x >>> (64 - n))) % 18446744073709551616

/-- Bitwise complement on 64-bit words (Rust `!x`). -/
def not64 (x : Nat) : Nat :=
  18446744073709551615 ^^^ x

/-- The 24-entry Keccak round-constant table (`ROUND_KEYS` in
`keccak.rs`, `RC` in `keccak1600.rs`). -/
def KECCAK_RC : List Nat :=
  [0x0000000000000001, 0x0000000000008082, 0x800000000000808a, 0x8000000080008000,
   0x000000000000808b, 0x0000000080000001, 0x8000000080008081, 0x8000000000008009,
   0x000000000000008a, 0x0000000000000088, 0x0000000080008009, 0x000000008000000a,
   0x000000008000808b, 0x800000000000008b, 0x8000000000008089, 0x8000000000008003,
   0x8000000000008002, 0x8000000000000080, 0x000000000000800a, 0x800000008000000a,
   0x8000000080008081, 0x8000000000008080, 0x0000000080000001, 0x8000000080008008]

/-- The 25 lane registers `a_ba .. a_su` of the fused implementation,
row-major (`ba` is lane 0, `su` is lane 24). -/
structure KLanes where
  ba : Nat
  be : Nat
  bi : Nat
  bo : Nat
  bu : Nat
  ga : Nat
  ge : Nat
  gi : Nat
  go : Nat
  gu : Nat
  ka : Nat
  ke : Nat
  ki : Nat
  ko : Nat
  ku : Nat
  ma : Nat
  me : Nat
  mi : Nat
  mo : Nat
  mu : Nat
  sa : Nat
  se : Nat
  si : Nat
  so : Nat
  su : Nat

/-- The five column-parity registers `c_a .. c_u`. -/
structure KParity where
  a : Nat
  e : Nat
  i : Nat
  o : Nat
  u : Nat

/-- The lane registers as a lane list. -/
def KLanes.toList (s : KLanes) : List Nat :=
  [s.ba, s.be, s.bi, s.bo, s.bu, s.ga, s.ge, s.gi, s.go, s.gu, s.ka, s.ke,
   s.ki, s.ko, s.ku, s.ma, s.me, s.mi, s.mo, s.mu, s.sa, s.se, s.si, s.so, s.su]

/-- Loading the lane registers from a lane list (`lanes[0] .. lanes[24]`). -/
def KLanes.ofList (l : List Nat) : KLanes :=
  ⟨l.getD 0 0, l.getD 1 0, l.getD 2 0, l.getD 3 0, l.getD 4 0,
   l.getD 5 0, l.getD 6 0, l.getD 7 0, l.getD 8 0, l.getD 9 0,
   l.getD 10 0, l.getD 11 0, l.getD 12 0, l.getD 13 0, l.getD 14 0,
   l.getD 15 0, l.getD 16 0, l.getD 17 0, l.getD 18 0, l.getD 19 0,
   l.getD 20 0, l.getD 21 0, l.getD 22 0, l.getD 23 0, l.getD 24 0⟩

/-- The column parities `c_a = a_ba ^ a_ga ^ a_ka ^ a_ma ^ a_sa`, etc.,
computed before the fused loop and maintained incrementally inside it. -/
def parityK (s : KLanes) : KParity :=
  ⟨s.ba ^^^ s.ga ^^^ s.ka ^^^ s.ma ^^^ s.sa,
   s.be ^^^ s.ge ^^^ s.ke ^^^ s.me ^^^ s.se,
   s.bi ^^^ s.gi ^^^ s.ki ^^^ s.mi ^^^ s.si,
   s.bo ^^^ s.go ^^^ s.ko ^^^ s.mo ^^^ s.so,
   s.bu ^^^ s.gu ^^^ s.ku ^^^ s.mu ^^^ s.su⟩

/-- One merged round of the fused loop of `keccak1600` in `keccak.rs`.
The source loop body consists of this text twice in a row: once computing
the `e_..` register bank from the `a_..` bank (round constant
`ROUND_KEYS[i]`), and once more with the two banks swapped (round
constant `ROUND_KEYS[i + 1]`).  `stepK` is that half, reading and
updating the parity registers `c_a .. c_u` exactly as the source does;
the input bank is `s` and the output bank is the returned lanes. -/
def stepK (rc1 : Nat) (s : KLanes) (c : KParity) : KLanes × KParity :=
  let d_a := c.u ^^^ rotl64 c.e 1
  let d_e := c.a ^^^ rotl64 c.i 1
  let d_i := c.e ^^^ rotl64 c.o 1
  let d_o := c.i ^^^ rotl64 c.u 1
  let d_u := c.o ^^^ rotl64 c.a 1
  let a_ba := s.ba ^^^ d_a
  let b_ba := a_ba
  let a_ge := s.ge ^^^ d_e
  let b_be := rotl64 a_ge 44
  let a_ki := s.ki ^^^ d_i
  let b_bi := rotl64 a_ki 43
  let a_mo := s.mo ^^^ d_o
  let b_bo := rotl64 a_mo 21
  let a_su := s.su ^^^ d_u
  let b_bu := rotl64 a_su 14
  let e_ba := b_ba ^^^ (not64 b_be &&& b_bi)
  let e_ba := e_ba ^^^ rc1
  let c_a := e_ba
  let e_be := b_be ^^^ (not64 b_bi &&& b_bo)
  let c_e := e_be
  let e_bi := b_bi ^^^ (not64 b_bo &&& b_bu)
  let c_i := e_bi
  let e_bo := b_bo ^^^ (not64 b_bu &&& b_ba)
  let c_o := e_bo
  let e_bu := b_bu ^^^ (not64 b_ba &&& b_be)
  let c_u := e_bu
  let a_bo := s.bo ^^^ d_o
  let b_ga := rotl64 a_bo 28
  let a_gu := s.gu ^^^ d_u
  let b_ge := rotl64 a_gu 20
  let a_ka := s.ka ^^^ d_a
  let b_gi := rotl64 a_ka 3
  let a_me := s.me ^^^ d_e
  let b_go := rotl64 a_me 45
  let a_si := s.si ^^^ d_i
  let b_gu := rotl64 a_si 61
  let e_ga := b_ga ^^^ (not64 b_ge &&& b_gi)
  let c_a := c_a ^^^ e_ga
  let e_ge := b_ge ^^^ (not64 b_gi &&& b_go)
  let c_e := c_e ^^^ e_ge
  let e_gi := b_gi ^^^ (not64 b_go &&& b_gu)
  let c_i := c_i ^^^ e_gi
  let e_go := b_go ^^^ (not64 b_gu &&& b_ga)
  let c_o := c_o ^^^ e_go
  let e_gu := b_gu ^^^ (not64 b_ga &&& b_ge)
  let c_u := c_u ^^^ e_gu
  let a_be := s.be ^^^ d_e
  let b_ka := rotl64 a_be 1
  let a_gi := s.gi ^^^ d_i
  let b_ke := rotl64 a_gi 6
  let a_ko := s.ko ^^^ d_o
  let b_ki := rotl64 a_ko 25
  let a_mu := s.mu ^^^ d_u
  let b_ko := rotl64 a_mu 8
  let a_sa := s.sa ^^^ d_a
  let b_ku := rotl64 a_sa 18
  let e_ka := b_ka ^^^ (not64 b_ke &&& b_ki)
  let c_a := c_a ^^^ e_ka
  let e_ke := b_ke ^^^ (not64 b_ki &&& b_ko)
  let c_e := c_e ^^^ e_ke
  let e_ki := b_ki ^^^ (not64 b_ko &&& b_ku)
  let c_i := c_i ^^^ e_ki
  let e_ko := b_ko ^^^ (not64 b_ku &&& b_ka)
  let c_o := c_o ^^^ e_ko
  let e_ku := b_ku ^^^ (not64 b_ka &&& b_ke)
  let c_u := c_u ^^^ e_ku
  let a_bu := s.bu ^^^ d_u
  let b_ma := rotl64 a_bu 27
  let a_ga := s.ga ^^^ d_a
  let b_me := rotl64 a_ga 36
  let a_ke := s.ke ^^^ d_e
  let b_mi := rotl64 a_ke 10
  let a_mi := s.mi ^^^ d_i
  let b_mo := rotl64 a_mi 15
  let a_so := s.so ^^^ d_o
  let b_mu := rotl64 a_so 56
  let e_ma := b_ma ^^^ (not64 b_me &&& b_mi)
  let c_a := c_a ^^^ e_ma
  let e_me := b_me ^^^ (not64 b_mi &&& b_mo)
  let c_e := c_e ^^^ e_me
  let e_mi := b_mi ^^^ (not64 b_mo &&& b_mu)
  let c_i := c_i ^^^ e_mi
  let e_mo := b_mo ^^^ (not64 b_mu &&& b_ma)
  let c_o := c_o ^^^ e_mo
  let e_mu := b_mu ^^^ (not64 b_ma &&& b_me)
  let c_u := c_u ^^^ e_mu
  let a_bi := s.bi ^^^ d_i
  let b_sa := rotl64 a_bi 62
  let a_go := s.go ^^^ d_o
  let b_se := rotl64 a_go 55
  let a_ku := s.ku ^^^ d_u
  let b_si := rotl64 a_ku 39
  let a_ma := s.ma ^^^ d_a
  let b_so := rotl64 a_ma 41
  let a_se := s.se ^^^ d_e
  let b_su := rotl64 a_se 2
  let e_sa := b_sa ^^^ (not64 b_se &&& b_si)
  let c_a := c_a ^^^ e_sa
  let e_se := b_se ^^^ (not64 b_si &&& b_so)
  let c_e := c_e ^^^ e_se
  let e_si := b_si ^^^ (not64 b_so &&& b_su)
  let c_i := c_i ^^^ e_si
  let e_so := b_so ^^^ (not64 b_su &&& b_sa)
  let c_o := c_o ^^^ e_so
  let e_su := b_su ^^^ (not64 b_sa &&& b_se)
  let c_u := c_u ^^^ e_su
  (⟨e_ba, e_be, e_bi, e_bo, e_bu, e_ga, e_ge, e_gi, e_go, e_gu, e_ka, e_ke,
    e_ki, e_ko, e_ku, e_ma, e_me, e_mi, e_mo, e_mu, e_sa, e_se, e_si, e_so, e_su⟩,
   ⟨c_a, c_e, c_i, c_o, c_u⟩)

/-- One iteration of the fused loop: the merged half-round applied twice,
with round constants `rc1` and `rc2`. -/
def fusedStep (rc1 rc2 : Nat) (s : KLanes) (c : KParity) : KLanes × KParity :=
  let r := stepK rc1 s c
  stepK rc2 r.1 r.2

/-- The fused loop: consume the round constants two at a time. -/
def fusedLoop : List Nat → KLanes → KParity → KLanes × KParity
  | rc1 :: rc2 :: rest, s, c =>
    let r := fusedStep rc1 rc2 s c
    fusedLoop rest r.1 r.2
  | _, s, c => (s, c)

/-- `keccak1600::<R>` from `keccak.rs` on a lane list: load the
registers, compute the initial parities, run the fused loop over the last
`R` round constants, store the registers. -/
def keccak1600_fused (R : Nat) (l : List Nat) : List Nat :=
  let s := KLanes.ofList l
  (fusedLoop (KECCAK_RC.drop (24 - R)) s (parityK s)).1.toList

/-- `LittleEndian::read_u64_into`: the 25 little-endian 64-bit lanes of a
200-byte state. -/
def bytes_to_lanes64 (s : List Nat) : List Nat :=
  (List.range 25).map (fun i =>
    s.getD (8 * i) 0 ||| (s.getD (8 * i + 1) 0 <<< 8) |||
      (s.getD (8 * i + 2) 0 <<< 16) ||| (s.getD (8 * i + 3) 0 <<< 24) |||
      (s.getD (8 * i + 4) 0 <<< 32) ||| (s.getD (8 * i + 5) 0 <<< 40) |||
      (s.getD (8 * i + 6) 0 <<< 48) ||| (s.getD (8 * i + 7) 0 <<< 56))

/-- The eight little-endian bytes of a 64-bit lane. -/
def lane_to_bytes64 (x : Nat) : List Nat :=
  [x % 256, (x >>> 8) % 256, (x >>> 16) % 256, (x >>> 24) % 256,
   (x >>> 32) % 256, (x >>> 40) % 256, (x >>> 48) % 256, (x >>> 56) % 256]

/-- `LittleEndian::write_u64_into`. -/
def lanes_to_bytes64 (ls : List Nat) : List Nat :=
  (ls.map lane_to_bytes64).flatten

/-- `KeccakP::<R>::permute` from `keccak.rs`: bytes to lanes, the fused
`keccak1600`, lanes back to bytes. -/
def keccakp_permute (R : Nat) (s : List Nat) : List Nat :=
  lanes_to_bytes64 (keccak1600_fused R (bytes_to_lanes64 s))

/-! ## The naive reference for Keccak-p[1600] (`src/keccak1600.rs` and
the spec text): the standard round function θ, ρ, π, χ, ι on a list of
25 lanes, with the published rotation-offset and π-permutation tables. -/

/-- Rotation offsets `(0..24).map(|t| ((t+1)*(t+2)/2) % 64)`. -/
def KECCAK_RHO : List Nat :=
  [1, 3, 6, 10, 15, 21, 28, 36, 45, 55, 2, 14, 27, 41, 56, 8, 25, 43, 62, 18, 39, 61, 20, 44]

/-- The π lane permutation. -/
def KECCAK_PI : List Nat :=
  [10, 7, 11, 17, 18, 3, 5, 16, 8, 21, 24, 4, 15, 23, 19, 13, 12, 2, 20, 14, 22, 9, 6, 1]

/-- θ: XOR each lane with the parity of its two neighbouring columns,
`lanes[x + y] ^= c[(x + 4) % 5] ^ c[(x + 1) % 5].rotate_left(1)`. -/
def keccak_theta (l : List Nat) : List Nat :=
  let c := (List.range 5).map (fun x =>
    l.getD x 0 ^^^ l.getD (x + 5) 0 ^^^ l.getD (x + 10) 0 ^^^
      l.getD (x + 15) 0 ^^^ l.getD (x + 20) 0)
  (List.range 25).map (fun i =>
    l.getD i 0 ^^^ (c.getD ((i + 4) % 5) 0 ^^^ rotl64 (c.getD ((i + 1) % 5) 0) 1))

/-- Looking up the ρ/π write chain: the source walks the zipped π/ρ
tables with a carried lane, executing `lanes[PI[x]] = rotl(a, RHO[x])`
where `a` holds `lanes[PI[x - 1]]` (initially `lanes[1]`).  The π entries
are pairwise distinct and non-zero, so every position `1 ≤ p ≤ 24` is
written exactly once, from the still-untouched post-θ lane at the
preceding π entry: this finder returns that (source position, rotation)
pair for `p`, carrying the preceding π entry exactly as the chain does. -/
def rho_pi_entry : List (Nat × Nat) → Nat → Nat → Nat × Nat
  | [], _, _ => (0, 0)
  | pr :: rest, prev, p => if pr.1 = p then (prev, pr.2) else rho_pi_entry rest pr.1 p

/-- ρ and π: lane 0 is untouched; lane `p` receives the post-θ lane at
the π-predecessor of `p`, rotated by the ρ entry of `p` (see
`rho_pi_entry`). -/
def keccak_rho_pi (l : List Nat) : List Nat :=
  (List.range 25).map (fun p =>
    if p = 0 then l.getD 0 0
    else
      let e := rho_pi_entry (KECCAK_PI.zip KECCAK_RHO) 1 p
      rotl64 (l.getD e.1 0) e.2)

/-- χ on one row of five lanes:
`lanes[x + y] = c[x] ^ ((!c[(x + 1) % 5]) & c[(x + 2) % 5])`. -/
def keccak_chi_row (r : List Nat) : List Nat :=
  (List.range 5).map (fun x =>
    r.getD x 0 ^^^ (not64 (r.getD ((x + 1) % 5) 0) &&& r.getD ((x + 2) % 5) 0))

/-- χ, applied row by row (rows start at offsets 0, 5, 10, 15, 20). -/
def keccak_chi (l : List Nat) : List Nat :=
  ((List.range 5).map (fun y => keccak_chi_row ((l.drop (5 * y)).take 5))).flatten

/-- ι: XOR the round constant into lane 0. -/
def keccak_iota (l : List Nat) (rc : Nat) : List Nat :=
  l.set 0 (l.getD 0 0 ^^^ rc)

/-- One reference round. -/
def keccak_ref_round (l : List Nat) (rc : Nat) : List Nat :=
  keccak_iota (keccak_chi (keccak_rho_pi (keccak_theta l))) rc

/-- `R` reference rounds, using the last `R` entries of the 24-entry
round-constant table (`RC[round + (RC.len() - R)]`). -/
def keccak_ref (R : Nat) (l : List Nat) : List Nat :=
  (KECCAK_RC.drop (24 - R)).foldl keccak_ref_round l

/-- The naive reference permutation of the 200-byte state named by the
spec: interpret the bytes as 25 little-endian 64-bit lanes, apply `R`
standard rounds, write the lanes back little-endian. -/
def keccak_ref_permute (R : Nat) (s : List Nat) : List Nat :=
  lanes_to_bytes64 (keccak_ref R (bytes_to_lanes64 s))

/-- The reference round in register form: the same θ/ρπ/χ/ι data flow
with the 25 lanes held in named registers (`t_..` are the post-θ lanes,
`b_..` the post-ρπ lanes; the `b` wiring enumerates exactly the π/ρ
tables as resolved by `rho_pi_entry`).  This is the bridge between the
list-level reference round and the register-level fused halves. -/
def refRoundK (rc : Nat) (s : KLanes) : KLanes :=
  let c_a := s.ba ^^^ s.ga ^^^ s.ka ^^^ s.ma ^^^ s.sa
  let c_e := s.be ^^^ s.ge ^^^ s.ke ^^^ s.me ^^^ s.se
  let c_i := s.bi ^^^ s.gi ^^^ s.ki ^^^ s.mi ^^^ s.si
  let c_o := s.bo ^^^ s.go ^^^ s.ko ^^^ s.mo ^^^ s.so
  let c_u := s.bu ^^^ s.gu ^^^ s.ku ^^^ s.mu ^^^ s.su
  let d_a := c_u ^^^ rotl64 c_e 1
  let d_e := c_a ^^^ rotl64 c_i 1
  let d_i := c_e ^^^ rotl64 c_o 1
  let d_o := c_i ^^^ rotl64 c_u 1
  let d_u := c_o ^^^ rotl64 c_a 1
  let t_ba := s.ba ^^^ d_a
  let t_be := s.be ^^^ d_e
  let t_bi := s.bi ^^^ d_i
  let t_bo := s.bo ^^^ d_o
  let t_bu := s.bu ^^^ d_u
  let t_ga := s.ga ^^^ d_a
  let t_ge := s.ge ^^^ d_e
  let t_gi := s.gi ^^^ d_i
  let t_go := s.go ^^^ d_o
  let t_gu := s.gu ^^^ d_u
  let t_ka := s.ka ^^^ d_a
  let t_ke := s.ke ^^^ d_e
  let t_ki := s.ki ^^^ d_i
  let t_ko := s.ko ^^^ d_o
  let t_ku := s.ku ^^^ d_u
  let t_ma := s.ma ^^^ d_a
  let t_me := s.me ^^^ d_e
  let t_mi := s.mi ^^^ d_i
  let t_mo := s.mo ^^^ d_o
  let t_mu := s.mu ^^^ d_u
  let t_sa := s.sa ^^^ d_a
  let t_se := s.se ^^^ d_e
  let t_si := s.si ^^^ d_i
  let t_so := s.so ^^^ d_o
  let t_su := s.su ^^^ d_u
  let b_ba := t_ba
  let b_be := rotl64 t_ge 44
  let b_bi := rotl64 t_ki 43
  let b_bo := rotl64 t_mo 21
  let b_bu := rotl64 t_su 14
  let b_ga := rotl64 t_bo 28
  let b_ge := rotl64 t_gu 20
  let b_gi := rotl64 t_ka 3
  let b_go := rotl64 t_me 45
  let b_gu := rotl64 t_si 61
  let b_ka := rotl64 t_be 1
  let b_ke := rotl64 t_gi 6
  let b_ki := rotl64 t_ko 25
  let b_ko := rotl64 t_mu 8
  let b_ku := rotl64 t_sa 18
  let b_ma := rotl64 t_bu 27
  let b_me := rotl64 t_ga 36
  let b_mi := rotl64 t_ke 10
  let b_mo := rotl64 t_mi 15
  let b_mu := rotl64 t_so 56
  let b_sa := rotl64 t_bi 62
  let b_se := rotl64 t_go 55
  let b_si := rotl64 t_ku 39
  let b_so := rotl64 t_ma 41
  let b_su := rotl64 t_se 2
  ⟨(b_ba ^^^ (not64 b_be &&& b_bi)) ^^^ rc,
   b_be ^^^ (not64 b_bi &&& b_bo),
   b_bi ^^^ (not64 b_bo &&& b_bu),
   b_bo ^^^ (not64 b_bu &&& b_ba),
   b_bu ^^^ (not64 b_ba &&& b_be),
   b_ga ^^^ (not64 b_ge &&& b_gi),
   b_ge ^^^ (not64 b_gi &&& b_go),
   b_gi ^^^ (not64 b_go &&& b_gu),
   b_go ^^^ (not64 b_gu &&& b_ga),
   b_gu ^^^ (not64 b_ga &&& b_ge),
   b_ka ^^^ (not64 b_ke &&& b_ki),
   b_ke ^^^ (not64 b_ki &&& b_ko),
   b_ki ^^^ (not64 b_ko &&& b_ku),
   b_ko ^^^ (not64 b_ku &&& b_ka),
   b_ku ^^^ (not64 b_ka &&& b_ke),
   b_ma ^^^ (not64 b_me &&& b_mi),
   b_me ^^^ (not64 b_mi &&& b_mo),
   b_mi ^^^ (not64 b_mo &&& b_mu),
   b_mo ^^^ (not64 b_mu &&& b_ma),
   b_mu ^^^ (not64 b_ma &&& b_me),
   b_sa ^^^ (not64 b_se &&& b_si),
   b_se ^^^ (not64 b_si &&& b_so),
   b_si ^^^ (not64 b_so &&& b_su),
   b_so ^^^ (not64 b_su &&& b_sa),
   b_su ^^^ (not64 b_sa &&& b_se)⟩

/-- The fused half-round, fed its own parities, is the reference round in
register form. -/
theorem stepK_eq (rc : Nat) (s : KLanes) :
    stepK rc s (parityK s) = (refRoundK rc s, parityK (refRoundK rc s)) := by
  rfl

/-- The list-level reference round agrees with the register-level one. -/
theorem ref_round_toList (rc : Nat) (s : KLanes) :
    keccak_ref_round s.toList rc = (refRoundK rc s).toList := by
  rfl

/-- One fused iteration is two reference rounds. -/
theorem fusedStep_eq (rc1 rc2 : Nat) (s : KLanes) :
    fusedStep rc1 rc2 s (parityK s) =
      (refRoundK rc2 (refRoundK rc1 s), parityK (refRoundK rc2 (refRoundK rc1 s))) := by
  show stepK rc2 (stepK rc1 s (parityK s)).1 (stepK rc1 s (parityK s)).2 = _
  rw [stepK_eq rc1 s]
  exact stepK_eq rc2 (refRoundK rc1 s)

/-- The fused loop over an even number of round constants computes the
fold of the reference round. -/
theorem fusedLoop_eq :
    ∀ (rcs : List Nat), rcs.length % 2 = 0 → ∀ (s : KLanes),
      (fusedLoop rcs s (parityK s)).1.toList = rcs.foldl keccak_ref_round s.toList
  | [], _, s => rfl
  | [rc], h, s => by simp at h
  | rc1 :: rc2 :: rest, h, s => by
    have h2 : rest.length % 2 = 0 := by
      simp only [List.length_cons] at h
      omega
    show (fusedLoop rest (fusedStep rc1 rc2 s (parityK s)).1
      (fusedStep rc1 rc2 s (parityK s)).2).1.toList = _
    rw [fusedStep_eq]
    rw [List.foldl_cons, List.foldl_cons, ref_round_toList rc1 s,
      ref_round_toList rc2 (refRoundK rc1 s)]
    exact fusedLoop_eq rest h2 (refRoundK rc2 (refRoundK rc1 s))

/-- The fused byte-level permutation agrees with the naive reference for
any even round count (stated via the evenness of the selected
round-constant segment). -/
theorem keccakp_permute_eq_ref (R : Nat)
    (hR : (KECCAK_RC.drop (24 - R)).length % 2 = 0) (s : List Nat) :
    keccakp_permute R s = keccak_ref_permute R s := by
  show lanes_to_bytes64 _ = lanes_to_bytes64 _
  refine congrArg _ ?_
  calc keccak1600_fused R (bytes_to_lanes64 s)
      = (fusedLoop (KECCAK_RC.drop (24 - R)) (KLanes.ofList (bytes_to_lanes64 s))
          (parityK (KLanes.ofList (bytes_to_lanes64 s)))).1.toList := rfl
    _ = (KECCAK_RC.drop (24 - R)).foldl keccak_ref_round
          (KLanes.ofList (bytes_to_lanes64 s)).toList :=
        fusedLoop_eq _ hR _
    _ = (KECCAK_RC.drop (24 - R)).foldl keccak_ref_round (bytes_to_lanes64 s) := by
        rw [show (KLanes.ofList (bytes_to_lanes64 s)).toList = bytes_to_lanes64 s from rfl]
    _ = keccak_ref R (bytes_to_lanes64 s) := rfl

/-- Claim C4: for each supported round count `R ∈ {10, 12, 14, 24}`, the
fused, two-rounds-unrolled Keccak-p implementation of `keccak.rs` is
extensionally equal to the naive reference on every input state: bytes
are read as 25 little-endian 64-bit lanes, `R` standard rounds
(θ, ρ, π, χ, ι over the published rotation-offset and π tables, with the
round constants at indices `24 - R .. 23`) are applied, and the lanes are
written back little-endian. -/
theorem claim_c4 :
    (∀ s, keccakp_permute 10 s = keccak_ref_permute 10 s) ∧
    (∀ s, keccakp_permute 12 s = keccak_ref_permute 12 s) ∧
    (∀ s, keccakp_permute 14 s = keccak_ref_permute 14 s) ∧
    (∀ s, keccakp_permute 24 s = keccak_ref_permute 24 s) :=
  ⟨fun s => keccakp_permute_eq_ref 10 (by decide) s,
   fun s => keccakp_permute_eq_ref 12 (by decide) s,
   fun s => keccakp_permute_eq_ref 14 (by decide) s,
   fun s => keccakp_permute_eq_ref 24 (by decide) s⟩

/-- Claim C7: one application of the Xoodoo-12 permutation to the
all-zero 48-byte state yields a state beginning `8d d8 d5 89 bf fc 63 a9`
and ending `4f 8b 62 40 4f 5e`. -/
theorem claim_c7 :
    (xoodoo_permute 12 (List.replicate 48 0)).take 8 =
      [0x8d, 0xd8, 0xd5, 0x89, 0xbf, 0xfc, 0x63, 0xa9] ∧
    (xoodoo_permute 12 (List.replicate 48 0)).drop 42 =
      [0x4f, 0x8b, 0x62, 0x40, 0x4f, 0x5e] := by
  decide

/-! ## Structural lemmas about the engine -/

/-- A permutation of the right width: it preserves the state length.
Every permutation in the crate maps 48- (or 200-) byte states to states
of the same width. -/
def PermGood (P : Params) : Prop :=
  ∀ s : List Nat, s.length = P.width → (P.perm s).length = P.width

theorem add_byte_length (s : List Nat) (b off : Nat) :
    (add_byte s b off).length = s.length :=
  List.length_set s off _

theorem add_bytes_length (s bytes : List Nat) :
    (add_bytes s bytes).length = s.length := by
  simp only [add_bytes, List.length_append, List.length_zipWith, List.length_drop]
  omega

theorem down_length (P : Params) (e : Engine) (bin : Option (List Nat)) (cd : Nat) :
    (down P e bin cd).state.length = e.state.length := by
  unfold down
  cases bin <;> simp [add_byte_length, add_bytes_length]

theorem up_fst_length (P : Params) (hperm : PermGood P) (e : Engine)
    (o : Option Nat) (cu : Nat) (he : e.state.length = P.width) :
    (up P e o cu).1.state.length = P.width := by
  have h0 : (if P.keyed then add_byte e.state cu (P.width - 1) else e.state).length
      = P.width := by
    split <;> simp [add_byte_length, he]
  unfold up
  cases o <;> exact hperm _ h0

theorem up_snd_length (P : Params) (hperm : PermGood P) (e : Engine)
    (n cu : Nat) (he : e.state.length = P.width) :
    (up P e (some n) cu).2.length = min n P.width := by
  have h1 := up_fst_length P hperm e (some n) cu he
  have h2 : (up P e (some n) cu).2 = (up P e (some n) cu).1.state.take n := rfl
  rw [h2, List.length_take, h1]

/-- XORing a keystream twice recovers the original bytes. -/
theorem zipWith_xor_cancel :
    ∀ (p k : List Nat), p.length ≤ k.length →
      List.zipWith (fun x k => x ^^^ k) (List.zipWith (fun x k => x ^^^ k) p k) k = p
  | [], _, _ => by simp
  | a :: p, b :: k, h => by
    simp only [List.zipWith, Nat.xor_cancel_right, List.cons.injEq, true_and]
    exact zipWith_xor_cancel p k (by simpa using h)
  | a :: p, [], h => by simp at h

theorem zipWith_xor_length (p k : List Nat) (h : p.length ≤ k.length) :
    (List.zipWith (fun x k => x ^^^ k) p k).length = p.length := by
  simp only [List.length_zipWith]
  omega

/-- Splitting at a rate-aligned point commutes with chunking. -/
theorem chunks_append (a b : List Nat) (r : Nat) (hr : r ≠ 0)
    (ha : a.length % r = 0) :
    chunks (a ++ b) r = chunks a r ++ chunks b r := by
  rcases eq_or_ne a [] with rfl | hne
  · simp only [List.nil_append]
    rw [show chunks ([] : List Nat) r = [] from by cases r <;> rfl, List.nil_append]
  · have hpos : 0 < a.length := List.length_pos.mpr hne
    have hdvd : r ∣ a.length := Nat.dvd_of_mod_eq_zero ha
    have hle : r ≤ a.length := Nat.le_of_dvd hpos hdvd
    have hmod : (a.drop r).length % r = 0 := by
      rw [List.length_drop]
      exact Nat.mod_eq_zero_of_dvd (Nat.dvd_sub' hdvd dvd_rfl)
    rw [chunks_eq (a ++ b) r, chunks_eq a r,
      if_neg (by simp only [List.length_append]; omega),
      if_neg (by omega),
      List.take_append_of_le_length hle, List.drop_append_of_le_length hle,
      chunks_append (a.drop r) b r hr hmod]
    simp
termination_by a.length
decreasing_by
  simp only [List.length_drop]
  omega

/-- `absorb_any` on a non-empty chunk decomposition. -/
theorem absorb_any_eq (P : Params) (e : Engine) (bin : List Nat) (rate cd : Nat)
    (c : List Nat) (rest : List (List Nat)) (h : chunks bin rate = c :: rest) :
    absorb_any P e bin rate cd =
      rest.foldl (absorb_step P)
        (down P (if e.up then e else (up P e none 0x00).1) (some c) cd) := by
  unfold absorb_any
  rw [h]

/-- Absorbing a rate-aligned non-empty prefix and extending with
`absorb_more` is the same as absorbing the concatenation. -/
theorem absorb_append (P : Params) (e : Engine) (a b : List Nat)
    (ha : a.length % P.absorbRate = 0) (hne : a ≠ []) :
    absorb P e (a ++ b) = absorb_more P (absorb P e a) b := by
  have hr : P.absorbRate ≠ 0 := by
    intro h0
    rw [h0, Nat.mod_zero] at ha
    exact hne (List.eq_nil_of_length_eq_zero ha)
  have hpos : 0 < a.length := List.length_pos.mpr hne
  have hch : chunks a P.absorbRate
      = a.take P.absorbRate :: chunks (a.drop P.absorbRate) P.absorbRate := by
    rw [chunks_eq, if_neg (by omega)]
  have hsplit : chunks (a ++ b) P.absorbRate
      = a.take P.absorbRate ::
        (chunks (a.drop P.absorbRate) P.absorbRate ++ chunks b P.absorbRate) := by
    rw [chunks_append a b _ hr ha, hch, List.cons_append]
  rw [show absorb P e (a ++ b) = absorb_any P e (a ++ b) P.absorbRate 0x03 from rfl,
    absorb_any_eq P e (a ++ b) _ _ _ _ hsplit, List.foldl_append,
    ← absorb_any_eq P e a P.absorbRate 0x03 _ _ hch]
  rfl

/-- Claim C6 (amended): for a non-empty rate-aligned prefix `a`,
`absorb (a ++ b)` and `absorb a; absorb_more b` yield the same engine,
and hence squeeze identically afterwards. -/
theorem claim_c6 (P : Params) (e : Engine) (a b : List Nat)
    (ha : a.length % P.absorbRate = 0) (hne : a ≠ []) :
    absorb P e (a ++ b) = absorb_more P (absorb P e a) b ∧
    ∀ n, squeeze_mut P (absorb P e (a ++ b)) n
        = squeeze_mut P (absorb_more P (absorb P e a) b) n := by
  have h := absorb_append P e a b ha hne
  exact ⟨h, fun n => by rw [h]⟩

/-- Claim C6 counterexample: the claim as stated also admits the empty
string as prefix, but `absorb ""` pads an empty first block (with the
absorb domain byte) and permutes, while `absorb [0]` absorbs `[0]` as its
first block, so the two engines differ. -/
theorem claim_c6_counterexample :
    absorb xoodyakHashP ⟨List.replicate 48 0, true⟩ ([] ++ [0]) ≠
      absorb_more xoodyakHashP
        (absorb xoodyakHashP ⟨List.replicate 48 0, true⟩ []) [0] := by
  decide

/-- Claim C6 witness: the amended claim at a concrete rate-aligned
non-empty prefix. -/
theorem claim_c6_witness :
    absorb xoodyakHashP ⟨List.replicate 48 0, true⟩ (List.replicate 16 7 ++ [9])
        = absorb_more xoodyakHashP
          (absorb xoodyakHashP ⟨List.replicate 48 0, true⟩ (List.replicate 16 7)) [9] ∧
    ∀ n, squeeze_mut xoodyakHashP
          (absorb xoodyakHashP ⟨List.replicate 48 0, true⟩ (List.replicate 16 7 ++ [9])) n
        = squeeze_mut xoodyakHashP
          (absorb_more xoodyakHashP
            (absorb xoodyakHashP ⟨List.replicate 48 0, true⟩ (List.replicate 16 7)) [9]) n :=
  claim_c6 xoodyakHashP ⟨List.replicate 48 0, true⟩ (List.replicate 16 7) [9]
    (by decide) (by decide)

/-- In unkeyed mode the UP domain byte is never injected. -/
theorem up_unkeyed (P : Params) (h : P.keyed = false) (e : Engine)
    (o : Option Nat) (cu1 cu2 : Nat) : up P e o cu1 = up P e o cu2 := by
  unfold up
  rw [h]
  simp only [Bool.false_eq_true, if_false]

/-- Claim C10: with `KEYED = false` the `0x40` and `0x20` UP domain bytes
are both discarded, so `squeeze_mut` and `squeeze_key_mut` perform the
same state transitions and produce the same bytes. -/
theorem claim_c10 (P : Params) (h : P.keyed = false) (e : Engine) (n : Nat) :
    squeeze_mut P e n = squeeze_key_mut P e n := by
  unfold squeeze_mut squeeze_key_mut squeeze_any
  rw [up_unkeyed P h e none 0x40 0x20,
    up_unkeyed P h e (some (min P.squeezeRate n)) 0x40 0x20]

/-- Claim C10 witness. -/
theorem claim_c10_witness :
    squeeze_mut xoodyakHashP ⟨List.replicate 48 0, true⟩ 3
      = squeeze_key_mut xoodyakHashP ⟨List.replicate 48 0, true⟩ 3 :=
  claim_c10 xoodyakHashP rfl ⟨List.replicate 48 0, true⟩ 3

/-- Pointwise effect of `add_byte` at an in-bounds offset. -/
theorem add_byte_getD (s : List Nat) (b off i : Nat) (hoff : off < s.length) :
    (add_byte s b off).getD i 0 = s.getD i 0 ^^^ (if i = off then b else 0) := by
  by_cases hoi : i = off
  · subst hoi
    simp only [add_byte, List.getD_eq_getElem?_getD, List.getElem?_set, if_pos rfl,
      if_pos hoff, if_pos trivial]
    rw [List.getElem?_eq_getElem hoff]
    rfl
  · simp only [add_byte, List.getD_eq_getElem?_getD, List.getElem?_set]
    rw [if_neg (fun hcon : off = i => hoi hcon.symm), if_neg hoi, Nat.xor_zero]

/-- Pointwise effect of `add_bytes` when the block is no longer than the
state. -/
theorem add_bytes_getD :
    ∀ (s bytes : List Nat), bytes.length ≤ s.length → ∀ i,
      (add_bytes s bytes).getD i 0 =
        s.getD i 0 ^^^ (if i < bytes.length then bytes.getD i 0 else 0)
  | s, [], _, i => by
    simp [add_bytes]
  | [], b :: bs, h, i => by
    simp at h
  | a :: s, b :: bs, h, i => by
    cases i with
    | zero => simp [add_bytes]
    | succ i =>
      have ih := add_bytes_getD s bs (by simpa using h) i
      simp only [add_bytes, List.zipWith_cons_cons, List.length_cons,
        List.drop_succ_cons, List.cons_append, List.getD_cons_succ] at ih ⊢
      rw [ih]
      simp only [Nat.add_lt_add_iff_right]

/-- Claim C5: the DOWN transition XORs the block into the state prefix,
`0x01` at offset `len(bin)`, and the (masked when unkeyed) domain byte at
offset `WIDTH - 1`, touches nothing else, clears the phase flag, and an
absent block behaves as an empty one. -/
theorem claim_c5 (P : Params) (e : Engine) (bin : List Nat) (cd : Nat)
    (hlen : e.state.length = P.width) (hbin : bin.length ≤ P.absorbRate)
    (hguard : P.absorbRate + 2 ≤ P.width) :
    (down P e (some bin) cd).up = false ∧
    (∀ i, (down P e (some bin) cd).state.getD i 0 =
      ((e.state.getD i 0 ^^^ (if i < bin.length then bin.getD i 0 else 0))
        ^^^ (if i = bin.length then 1 else 0))
        ^^^ (if i = P.width - 1 then (if P.keyed then cd else cd &&& 0x01) else 0)) ∧
    down P e none cd = down P e (some []) cd := by
  refine ⟨rfl, fun i => ?_, ?_⟩
  · show (add_byte (add_byte (add_bytes e.state bin) 1 bin.length)
      (if P.keyed then cd else cd &&& 0x01) (P.width - 1)).getD i 0 = _
    rw [add_byte_getD _ _ _ i
        (by rw [add_byte_length, add_bytes_length, hlen]; omega),
      add_byte_getD _ _ _ i (by rw [add_bytes_length, hlen]; omega),
      add_bytes_getD e.state bin (by rw [hlen]; omega) i]
  · show (⟨add_byte (add_byte e.state 1 0)
        (if P.keyed then cd else cd &&& 0x01) (P.width - 1), false⟩ : Engine)
      = ⟨add_byte (add_byte (add_bytes e.state []) 1 (List.length []))
        (if P.keyed then cd else cd &&& 0x01) (P.width - 1), false⟩
    rw [show add_bytes e.state [] = e.state by
      simp [add_bytes]]
    rfl

/-- Claim C5 witness. -/
theorem claim_c5_witness :
    (down xoodyakKeyedP ⟨List.replicate 48 0, true⟩ (some [7]) 3).up = false ∧
    (∀ i, (down xoodyakKeyedP ⟨List.replicate 48 0, true⟩ (some [7]) 3).state.getD i 0 =
      (((⟨List.replicate 48 0, true⟩ : Engine).state.getD i 0 ^^^
          (if i < List.length [7] then List.getD [7] i 0 else 0))
        ^^^ (if i = List.length [7] then 1 else 0))
        ^^^ (if i = xoodyakKeyedP.width - 1
          then (if xoodyakKeyedP.keyed then 3 else 3 &&& 0x01) else 0)) ∧
    down xoodyakKeyedP ⟨List.replicate 48 0, true⟩ none 3
      = down xoodyakKeyedP ⟨List.replicate 48 0, true⟩ (some []) 3 :=
  claim_c5 xoodyakKeyedP ⟨List.replicate 48 0, true⟩ [7] 3 (by decide) (by decide)
    (by decide)

/-- Claim C8: `CyclistCore::new` (hence `CyclistHash::default` and
`CyclistKeyed::new`, which construct the core first) fails exactly when
`max(ABSORB_RATE, SQUEEZE_RATE) + 2 > WIDTH`. -/
theorem claim_c8 (P : Params) :
    (core_new P = none ↔ P.width < max P.absorbRate P.squeezeRate + 2) ∧
    (hash_default P.perm P.width P.absorbRate = core_new
      ⟨P.perm, P.width, false, P.absorbRate, P.absorbRate, 0, 0⟩) ∧
    (P.width < max P.absorbRate P.squeezeRate + 2 →
      ∀ key kid ctr, keyed_new P key kid ctr = none) := by
  refine ⟨?_, rfl, ?_⟩
  · unfold core_new
    by_cases hg : max P.absorbRate P.squeezeRate + 2 ≤ P.width
    · rw [if_pos hg]
      exact ⟨fun hcon => Option.noConfusion hcon, fun hcon => absurd hg (by omega)⟩
    · rw [if_neg hg]
      exact ⟨fun _ => by omega, fun _ => rfl⟩
  · intro hbad key kid ctr
    unfold keyed_new core_new
    rw [if_neg (by omega)]

/-- Claim C8 witness: a parameterization violating the guard. -/
theorem claim_c8_witness :
    core_new ⟨fun s => s, 2, false, 1, 1, 0, 0⟩ = none ∧
    keyed_new ⟨fun s => s, 2, false, 1, 1, 0, 0⟩ [] [] [] = none :=
  ⟨(claim_c8 ⟨fun s => s, 2, false, 1, 1, 0, 0⟩).1.mpr (by decide),
   (claim_c8 ⟨fun s => s, 2, false, 1, 1, 0, 0⟩).2.2 (by decide) [] [] []⟩

/-- Claim C3: `CyclistKeyed::new` panics exactly when
`len(key) + len(key_id) + 1 > ABSORB_RATE`; otherwise it absorbs
`key || key_id || [len(key_id)]` at the full absorb rate with DOWN domain
byte `0x02` into the fresh all-zero engine, then, exactly when the
counter is non-empty, absorbs it at rate 1 with DOWN domain byte `0x00`.
The side conditions hold for every profile in the crate: a positive
absorb rate of at most 256 bytes (so the `u8` conversion of the key-ID
length can never be the panic source) and the construction guard. -/
theorem claim_c3 (P : Params) (key kid ctr : List Nat)
    (hAR : 0 < P.absorbRate) (hAR256 : P.absorbRate ≤ 256)
    (hguard : max P.absorbRate P.squeezeRate + 2 ≤ P.width) :
    (keyed_new P key kid ctr = none ↔ P.absorbRate < key.length + kid.length + 1) ∧
    (key.length + kid.length + 1 ≤ P.absorbRate →
      keyed_new P key kid ctr = some (
        if ctr = [] then
          absorb_any P ⟨List.replicate P.width 0, true⟩
            (key ++ kid ++ [kid.length]) P.absorbRate 0x02
        else
          absorb_any P (absorb_any P ⟨List.replicate P.width 0, true⟩
            (key ++ kid ++ [kid.length]) P.absorbRate 0x02) ctr 1 0x00)) := by
  have hcore : keyed_new P key kid ctr
      = keyed_new_checked P key kid ctr ⟨List.replicate P.width 0, true⟩ := by
    unfold keyed_new core_new
    rw [if_pos hguard]
  rw [hcore]
  unfold keyed_new_checked
  constructor
  · by_cases hk : key.length + kid.length ≤ P.absorbRate - 1
    · rw [if_pos hk, if_pos (by omega)]
      exact ⟨fun hcon => Option.noConfusion hcon, fun hcon => by omega⟩
    · rw [if_neg hk]
      exact ⟨fun _ => by omega, fun _ => rfl⟩
  · intro hlen
    rw [if_pos (by omega), if_pos (by omega)]

/-- Claim C3 witness. -/
theorem claim_c3_witness :
    (keyed_new xoodyakKeyedP [1, 2] [3] [4] = none ↔
      xoodyakKeyedP.absorbRate < List.length [1, 2] + List.length [3] + 1) ∧
    (List.length [1, 2] + List.length [3] + 1 ≤ xoodyakKeyedP.absorbRate →
      keyed_new xoodyakKeyedP [1, 2] [3] [4] = some (
        if ([4] : List Nat) = [] then
          absorb_any xoodyakKeyedP ⟨List.replicate xoodyakKeyedP.width 0, true⟩
            ([1, 2] ++ [3] ++ [List.length [3]]) xoodyakKeyedP.absorbRate 0x02
        else
          absorb_any xoodyakKeyedP
            (absorb_any xoodyakKeyedP ⟨List.replicate xoodyakKeyedP.width 0, true⟩
              ([1, 2] ++ [3] ++ [List.length [3]]) xoodyakKeyedP.absorbRate 0x02)
            [4] 1 0x00)) :=
  claim_c3 xoodyakKeyedP [1, 2] [3] [4] (by decide) (by decide) (by decide)

theorem squeeze_rest_spec (P : Params) (hperm : PermGood P)
    (hsr : 0 < P.squeezeRate) (hsw : P.squeezeRate ≤ P.width) :
    ∀ (n : Nat) (e : Engine), e.state.length = P.width →
      (squeeze_rest P e n).1.state.length = P.width ∧
      (squeeze_rest P e n).2.length = n := by
  intro n
  induction n using Nat.strong_induction_on with
  | _ n ih =>
    intro e he
    rw [squeeze_rest]
    split
    · next h =>
      have hn : n = 0 := by omega
      exact ⟨he, by simp [hn]⟩
    · next h =>
      push_neg at h
      have hd : (down P e none 0x00).state.length = P.width := by
        rw [down_length]; exact he
      have h1 := up_fst_length P hperm (down P e none 0x00)
        (some (min P.squeezeRate n)) 0x00 hd
      have h2 := up_snd_length P hperm (down P e none 0x00)
        (min P.squeezeRate n) 0x00 hd
      have hrec := ih (n - P.squeezeRate) (by omega) _ h1
      refine ⟨hrec.1, ?_⟩
      simp only [List.length_append, hrec.2, h2]
      omega

theorem squeeze_any_spec (P : Params) (hperm : PermGood P)
    (hsr : 0 < P.squeezeRate) (hsw : P.squeezeRate ≤ P.width)
    (n cu : Nat) (e : Engine) (he : e.state.length = P.width) :
    (squeeze_any P e n cu).1.state.length = P.width ∧
    (squeeze_any P e n cu).2.length = n := by
  unfold squeeze_any
  split
  · next h =>
    have hn : n = 0 := by omega
    exact ⟨up_fst_length P hperm e none cu he, by simp [hn]⟩
  · next h =>
    push_neg at h
    have h1 := up_fst_length P hperm e (some (min P.squeezeRate n)) cu he
    have h2 := up_snd_length P hperm e (min P.squeezeRate n) cu he
    have hrec := squeeze_rest_spec P hperm hsr hsw (n - P.squeezeRate) _ h1
    refine ⟨hrec.1, ?_⟩
    simp only [List.length_append, hrec.2, h2]
    omega

theorem encrypt_chunks_spec (P : Params) (hperm : PermGood P)
    (hsr : 0 < P.squeezeRate) (hsw : P.squeezeRate ≤ P.width)
    (bin : List Nat) (e : Engine) (cu : Nat) (he : e.state.length = P.width) :
    (encrypt_chunks P e bin cu).1.state.length = P.width ∧
    (encrypt_chunks P e bin cu).2.length = bin.length := by
  rw [encrypt_chunks]
  split
  · next h =>
    have hb : bin = [] := by
      rcases h with h | h
      · exact h
      · omega
    exact ⟨he, by simp [hb]⟩
  · next h =>
    push_neg at h
    have hblen : 0 < bin.length := List.length_pos.mpr h.1
    have hs0 : P.squeezeRate ≠ 0 := h.2
    have hup1 := up_fst_length P hperm e (some P.squeezeRate) cu he
    have hup2 := up_snd_length P hperm e P.squeezeRate cu he
    have hd : (down P (up P e (some P.squeezeRate) cu).1
        (some (bin.take P.squeezeRate)) 0x00).state.length = P.width := by
      rw [down_length]; exact hup1
    have hrec := encrypt_chunks_spec P hperm hsr hsw (bin.drop P.squeezeRate) _ 0x00 hd
    refine ⟨hrec.1, ?_⟩
    simp only [List.length_append, hrec.2, List.length_zipWith, List.length_take,
      List.length_drop, hup2]
    omega
termination_by bin.length
decreasing_by
  simp only [List.length_drop]
  omega

theorem decrypt_chunks_spec (P : Params) (hperm : PermGood P)
    (hsr : 0 < P.squeezeRate) (hsw : P.squeezeRate ≤ P.width)
    (bin : List Nat) (e : Engine) (cu : Nat) (he : e.state.length = P.width) :
    (decrypt_chunks P e bin cu).1.state.length = P.width ∧
    (decrypt_chunks P e bin cu).2.length = bin.length := by
  rw [decrypt_chunks]
  split
  · next h =>
    have hb : bin = [] := by
      rcases h with h | h
      · exact h
      · omega
    exact ⟨he, by simp [hb]⟩
  · next h =>
    push_neg at h
    have hblen : 0 < bin.length := List.length_pos.mpr h.1
    have hs0 : P.squeezeRate ≠ 0 := h.2
    have hup1 := up_fst_length P hperm e (some P.squeezeRate) cu he
    have hup2 := up_snd_length P hperm e P.squeezeRate cu he
    have hd : (down P (up P e (some P.squeezeRate) cu).1
        (some (List.zipWith (fun x k => x ^^^ k) (bin.take P.squeezeRate)
          (up P e (some P.squeezeRate) cu).2)) 0x00).state.length = P.width := by
      rw [down_length]; exact hup1
    have hrec := decrypt_chunks_spec P hperm hsr hsw (bin.drop P.squeezeRate) _ 0x00 hd
    refine ⟨hrec.1, ?_⟩
    simp only [List.length_append, hrec.2, List.length_zipWith, List.length_take,
      List.length_drop, hup2]
    omega
termination_by bin.length
decreasing_by
  simp only [List.length_drop]
  omega

/-- Decrypting what was just encrypted from the same engine recovers the
plaintext and reaches the same engine: both directions derive the same
keystream and absorb the same plaintext. -/
theorem decrypt_encrypt (P : Params) (hperm : PermGood P)
    (hsr : 0 < P.squeezeRate) (hsw : P.squeezeRate ≤ P.width)
    (bin : List Nat) (e : Engine) (cu : Nat) (he : e.state.length = P.width) :
    decrypt_chunks P e (encrypt_chunks P e bin cu).2 cu
      = ((encrypt_chunks P e bin cu).1, bin) := by
  rcases eq_or_ne bin [] with rfl | hb
  · rw [encrypt_chunks, dif_pos (Or.inl rfl)]
    rw [decrypt_chunks, dif_pos (Or.inl rfl)]
  · have hblen : 0 < bin.length := List.length_pos.mpr hb
    have hs0 : P.squeezeRate ≠ 0 := by omega
    rw [encrypt_chunks, dif_neg (by push_neg; exact ⟨hb, hs0⟩)]
    have htmp : (up P e (some P.squeezeRate) cu).2.length = P.squeezeRate := by
      rw [up_snd_length P hperm e P.squeezeRate cu he]
      omega
    have hplen : (bin.take P.squeezeRate).length = min P.squeezeRate bin.length := by
      simp [List.length_take]
    have hclen : (List.zipWith (fun x k => x ^^^ k) (bin.take P.squeezeRate)
        (up P e (some P.squeezeRate) cu).2).length = min P.squeezeRate bin.length := by
      rw [zipWith_xor_length _ _ (by omega), hplen]
    have he2 : (down P (up P e (some P.squeezeRate) cu).1
        (some (bin.take P.squeezeRate)) 0x00).state.length = P.width := by
      rw [down_length]
      exact up_fst_length P hperm e (some P.squeezeRate) cu he
    have hrest := encrypt_chunks_spec P hperm hsr hsw (bin.drop P.squeezeRate) _ 0x00 he2
    dsimp only
    rw [decrypt_chunks, dif_neg (by
      push_neg
      refine ⟨fun hcon => ?_, hs0⟩
      have := congrArg List.length hcon
      simp only [List.length_append, hclen, List.length_nil] at this
      omega)]
    have htake : (List.zipWith (fun x k => x ^^^ k) (bin.take P.squeezeRate)
          (up P e (some P.squeezeRate) cu).2 ++
        (encrypt_chunks P (down P (up P e (some P.squeezeRate) cu).1
          (some (bin.take P.squeezeRate)) 0x00) (bin.drop P.squeezeRate) 0x00).2).take
            P.squeezeRate
        = List.zipWith (fun x k => x ^^^ k) (bin.take P.squeezeRate)
            (up P e (some P.squeezeRate) cu).2 := by
      rcases le_or_lt P.squeezeRate bin.length with hc | hc
      · rw [List.take_append_of_le_length (by omega)]
        exact List.take_of_length_le (by omega)
      · have hnil : (encrypt_chunks P (down P (up P e (some P.squeezeRate) cu).1
            (some (bin.take P.squeezeRate)) 0x00) (bin.drop P.squeezeRate) 0x00).2 = [] := by
          refine List.eq_nil_of_length_eq_zero ?_
          rw [hrest.2, List.length_drop]
          omega
        rw [hnil, List.append_nil]
        exact List.take_of_length_le (by omega)
    have hdrop : (List.zipWith (fun x k => x ^^^ k) (bin.take P.squeezeRate)
          (up P e (some P.squeezeRate) cu).2 ++
        (encrypt_chunks P (down P (up P e (some P.squeezeRate) cu).1
          (some (bin.take P.squeezeRate)) 0x00) (bin.drop P.squeezeRate) 0x00).2).drop
            P.squeezeRate
        = (encrypt_chunks P (down P (up P e (some P.squeezeRate) cu).1
            (some (bin.take P.squeezeRate)) 0x00) (bin.drop P.squeezeRate) 0x00).2 := by
      rcases le_or_lt P.squeezeRate bin.length with hc | hc
      · rw [List.drop_append_of_le_length (by omega)]
        rw [List.drop_of_length_le (by omega), List.nil_append]
      · have hnil : (encrypt_chunks P (down P (up P e (some P.squeezeRate) cu).1
            (some (bin.take P.squeezeRate)) 0x00) (bin.drop P.squeezeRate) 0x00).2 = [] := by
          refine List.eq_nil_of_length_eq_zero ?_
          rw [hrest.2, List.length_drop]
          omega
        rw [hnil, List.append_nil, List.drop_of_length_le (by omega)]
    dsimp only
    rw [htake, hdrop,
      zipWith_xor_cancel (bin.take P.squeezeRate) (up P e (some P.squeezeRate) cu).2
        (by omega),
      decrypt_encrypt P hperm hsr hsw (bin.drop P.squeezeRate) _ 0x00 he2,
      List.take_append_drop]
termination_by bin.length
decreasing_by
  simp only [List.length_drop]
  omega

theorem foldl_absorb_length (P : Params) (hperm : PermGood P) :
    ∀ (cs : List (List Nat)) (e : Engine), e.state.length = P.width →
      (cs.foldl (absorb_step P) e).state.length = P.width
  | [], e, he => he
  | c :: cs, e, he =>
    foldl_absorb_length P hperm cs _ (by
      unfold absorb_step
      rw [down_length]
      exact up_fst_length P hperm e none 0x00 he)

theorem absorb_any_nil_eq (P : Params) (e : Engine) (bin : List Nat) (rate cd : Nat)
    (h : chunks bin rate = []) :
    absorb_any P e bin rate cd =
      down P (if e.up then e else (up P e none 0x00).1) none cd := by
  unfold absorb_any
  rw [h]

theorem absorb_any_length (P : Params) (hperm : PermGood P) (e : Engine)
    (bin : List Nat) (rate cd : Nat) (he : e.state.length = P.width) :
    (absorb_any P e bin rate cd).state.length = P.width := by
  have he1 : (if e.up then e else (up P e none 0x00).1).state.length = P.width := by
    split
    · exact he
    · exact up_fst_length P hperm e none 0x00 he
  rcases hch : chunks bin rate with _ | ⟨c, rest⟩
  · rw [absorb_any_nil_eq P e bin rate cd hch, down_length]
    exact he1
  · rw [absorb_any_eq P e bin rate cd c rest hch]
    refine foldl_absorb_length P hperm rest _ ?_
    rw [down_length]
    exact he1

theorem lanes_to_bytes32_length :
    ∀ (ls : List Nat), (lanes_to_bytes32 ls).length = 4 * ls.length
  | [] => rfl
  | x :: ls => by
    simp only [lanes_to_bytes32, List.map_cons, List.flatten_cons, List.length_append]
    have := lanes_to_bytes32_length ls
    simp only [lanes_to_bytes32] at this
    rw [this]
    simp [lane_to_bytes32]
    omega

theorem xoodoo_fold_length :
    ∀ (keys init : List Nat), init.length = 12 →
      (keys.foldl xoodoo_round init).length = 12
  | [], _, h => h
  | k :: keys, init, _ => xoodoo_fold_length keys (xoodoo_round init k) rfl

theorem xoodoo_permute_length (R : Nat) (s : List Nat) :
    (xoodoo_permute R s).length = 48 := by
  unfold xoodoo_permute
  rw [lanes_to_bytes32_length, xoodoo_fold_length]
  simp [bytes_to_lanes32]

/-- The Xoodoo permutation preserves the 48-byte width (keyed profile). -/
theorem xoodoo_keyed_perm_good : PermGood xoodyakKeyedP :=
  fun s _ => xoodoo_permute_length 12 s

/-- The Xoodoo permutation preserves the 48-byte width (hash profile). -/
theorem xoodoo_hash_perm_good : PermGood xoodyakHashP :=
  fun s _ => xoodoo_permute_length 12 s

theorem take_append_of_length_eq {α : Type} {A B : List α} {n : Nat}
    (h : A.length = n) : (A ++ B).take n = A := by
  subst h
  exact List.take_left _ _

theorem drop_append_of_length_eq {α : Type} {A B : List α} {n : Nat}
    (h : A.length = n) : (A ++ B).drop n = B := by
  subst h
  exact List.drop_left _ _

/-- Claim C2: `open_mut` on a buffer of length at least `TAG_LEN`
decrypts the leading bytes in place, returns `true` exactly when the
squeezed counterfactual tag equals the trailing `TAG_LEN` bytes, zeroes
the leading region on failure, and never modifies the trailing bytes. -/
theorem claim_c2 (P : Params) (e : Engine) (buf : List Nat)
    (hperm : PermGood P) (hlen : e.state.length = P.width)
    (hsr : 0 < P.squeezeRate) (hsw : P.squeezeRate ≤ P.width)
    (hbuf : P.tagLen ≤ buf.length) :
    ((open_mut P e buf).2.1.drop (buf.length - P.tagLen)
        = buf.drop (buf.length - P.tagLen)) ∧
    ((open_mut P e buf).2.2 = true ↔
      buf.drop (buf.length - P.tagLen)
        = (squeeze_mut P (decrypt_mut P e (buf.take (buf.length - P.tagLen))).1
            P.tagLen).2) ∧
    ((open_mut P e buf).2.2 = false →
      (open_mut P e buf).2.1.take (buf.length - P.tagLen)
        = List.replicate (buf.length - P.tagLen) 0) ∧
    ((open_mut P e buf).2.2 = true →
      (open_mut P e buf).2.1.take (buf.length - P.tagLen)
        = (decrypt_mut P e (buf.take (buf.length - P.tagLen))).2) := by
  have hdlen : (decrypt_mut P e (buf.take (buf.length - P.tagLen))).2.length
      = buf.length - P.tagLen := by
    unfold decrypt_mut
    rw [(decrypt_chunks_spec P hperm hsr hsw _ e 0x80 hlen).2, List.length_take]
    omega
  have hrlen : (List.replicate (buf.length - P.tagLen) (0 : Nat)).length
      = buf.length - P.tagLen := List.length_replicate _ _
  unfold open_mut
  dsimp only
  split
  · next htag =>
    refine ⟨drop_append_of_length_eq hdlen, ?_, ?_, ?_⟩
    · simp only [true_iff]
      exact htag
    · intro hcon
      exact Bool.noConfusion hcon
    · intro _
      exact take_append_of_length_eq hdlen
  · next htag =>
    refine ⟨drop_append_of_length_eq hrlen, ?_, ?_, ?_⟩
    · simp only [Bool.false_eq_true, false_iff]
      exact htag
    · intro _
      exact take_append_of_length_eq hrlen
    · intro hcon
      exact Bool.noConfusion hcon

/-- Claim C2 witness. -/
theorem claim_c2_witness :
    ((open_mut xoodyakKeyedP ⟨List.replicate 48 0, true⟩ (List.replicate 16 0)).2.1.drop
        (List.length (List.replicate 16 (0 : Nat)) - xoodyakKeyedP.tagLen)
      = (List.replicate 16 (0 : Nat)).drop
        (List.length (List.replicate 16 (0 : Nat)) - xoodyakKeyedP.tagLen)) ∧
    ((open_mut xoodyakKeyedP ⟨List.replicate 48 0, true⟩ (List.replicate 16 0)).2.2 = true ↔
      (List.replicate 16 (0 : Nat)).drop
          (List.length (List.replicate 16 (0 : Nat)) - xoodyakKeyedP.tagLen)
        = (squeeze_mut xoodyakKeyedP (decrypt_mut xoodyakKeyedP ⟨List.replicate 48 0, true⟩
            ((List.replicate 16 (0 : Nat)).take
              (List.length (List.replicate 16 (0 : Nat)) - xoodyakKeyedP.tagLen))).1
            xoodyakKeyedP.tagLen).2) ∧
    ((open_mut xoodyakKeyedP ⟨List.replicate 48 0, true⟩ (List.replicate 16 0)).2.2 = false →
      (open_mut xoodyakKeyedP ⟨List.replicate 48 0, true⟩ (List.replicate 16 0)).2.1.take
          (List.length (List.replicate 16 (0 : Nat)) - xoodyakKeyedP.tagLen)
        = List.replicate (List.length (List.replicate 16 (0 : Nat)) - xoodyakKeyedP.tagLen) 0) ∧
    ((open_mut xoodyakKeyedP ⟨List.replicate 48 0, true⟩ (List.replicate 16 0)).2.2 = true →
      (open_mut xoodyakKeyedP ⟨List.replicate 48 0, true⟩ (List.replicate 16 0)).2.1.take
          (List.length (List.replicate 16 (0 : Nat)) - xoodyakKeyedP.tagLen)
        = (decrypt_mut xoodyakKeyedP ⟨List.replicate 48 0, true⟩
            ((List.replicate 16 (0 : Nat)).take
              (List.length (List.replicate 16 (0 : Nat)) - xoodyakKeyedP.tagLen))).2) :=
  claim_c2 xoodyakKeyedP ⟨List.replicate 48 0, true⟩ (List.replicate 16 0)
    xoodoo_keyed_perm_good (by decide) (by decide) (by decide) (by decide)

/-- `open` on the output of `seal` from the same starting engine
authenticates, returns the original plaintext, and leaves both engines in
the same state. -/
theorem open_seal (P : Params) (hperm : PermGood P) (hsr : 0 < P.squeezeRate)
    (hsw : P.squeezeRate ≤ P.width) (pt : List Nat) (e : Engine)
    (he : e.state.length = P.width) :
    open_vec P e (seal_vec P e pt).2 = ((seal_vec P e pt).1, some pt) := by
  have hn0 : (pt ++ List.replicate P.tagLen 0).length - P.tagLen = pt.length := by
    simp only [List.length_append, List.length_replicate]
    omega
  have hseal : seal_vec P e pt
      = ((squeeze_mut P (encrypt_mut P e pt).1 P.tagLen).1,
         (encrypt_mut P e pt).2 ++ (squeeze_mut P (encrypt_mut P e pt).1 P.tagLen).2) := by
    unfold seal_vec seal_mut
    dsimp only
    rw [hn0, take_append_of_length_eq rfl]
  have hctlen : (encrypt_mut P e pt).2.length = pt.length :=
    (encrypt_chunks_spec P hperm hsr hsw pt e 0x80 he).2
  have henglen : (encrypt_mut P e pt).1.state.length = P.width :=
    (encrypt_chunks_spec P hperm hsr hsw pt e 0x80 he).1
  have htaglen : (squeeze_mut P (encrypt_mut P e pt).1 P.tagLen).2.length = P.tagLen :=
    (squeeze_any_spec P hperm hsr hsw P.tagLen 0x40 _ henglen).2
  have hn1 : ((encrypt_mut P e pt).2
      ++ (squeeze_mut P (encrypt_mut P e pt).1 P.tagLen).2).length - P.tagLen
      = pt.length := by
    simp only [List.length_append, hctlen, htaglen]
    omega
  have hdec : decrypt_mut P e (encrypt_mut P e pt).2 = ((encrypt_mut P e pt).1, pt) :=
    decrypt_encrypt P hperm hsr hsw pt e 0x80 he
  rw [hseal]
  unfold open_vec open_mut
  dsimp only
  rw [hn1, take_append_of_length_eq hctlen, drop_append_of_length_eq hctlen, hdec]
  dsimp only
  rw [if_pos rfl]
  dsimp only
  rw [take_append_of_length_eq rfl]
  rfl

/-- Claim C1: two keyed instances built from the same
`(key, key_id, counter)` (one pure construction in the model) that absorb
the same associated data stay in lock-step through `seal`/`open`: `open`
on the sealed output authenticates, returns the plaintext, and the
engines agree on every subsequent squeeze.  The parameter-level side
conditions hold for every keyed profile in the crate. -/
theorem claim_c1 (P : Params) (key kid ctr ad pt : List Nat)
    (hperm : PermGood P) (hAR : 0 < P.absorbRate) (hAR256 : P.absorbRate ≤ 256)
    (hsr : 0 < P.squeezeRate) (hguard : max P.absorbRate P.squeezeRate + 2 ≤ P.width)
    (hk : key.length + kid.length + 1 ≤ P.absorbRate) :
    ∃ e0, keyed_new P key kid ctr = some e0 ∧
      open_vec P (absorb P e0 ad) (seal_vec P (absorb P e0 ad) pt).2
        = ((seal_vec P (absorb P e0 ad) pt).1, some pt) ∧
      ∀ n, squeeze_mut P
            (open_vec P (absorb P e0 ad) (seal_vec P (absorb P e0 ad) pt).2).1 n
          = squeeze_mut P (seal_vec P (absorb P e0 ad) pt).1 n := by
  have hsw : P.squeezeRate ≤ P.width := by omega
  have hcore : keyed_new P key kid ctr
      = keyed_new_checked P key kid ctr ⟨List.replicate P.width 0, true⟩ := by
    unfold keyed_new core_new
    rw [if_pos hguard]
  have hchk : keyed_new_checked P key kid ctr ⟨List.replicate P.width 0, true⟩
      = some (if ctr = [] then
          absorb_any P ⟨List.replicate P.width 0, true⟩
            (key ++ kid ++ [kid.length]) P.absorbRate 0x02
        else
          absorb_any P (absorb_any P ⟨List.replicate P.width 0, true⟩
            (key ++ kid ++ [kid.length]) P.absorbRate 0x02) ctr 1 0x00) := by
    unfold keyed_new_checked
    rw [if_pos (by omega), if_pos (by omega)]
  refine ⟨_, hcore.trans hchk, ?_, ?_⟩
  all_goals
    have he0 : (if ctr = [] then
        absorb_any P ⟨List.replicate P.width 0, true⟩
          (key ++ kid ++ [kid.length]) P.absorbRate 0x02
      else
        absorb_any P (absorb_any P ⟨List.replicate P.width 0, true⟩
          (key ++ kid ++ [kid.length]) P.absorbRate 0x02) ctr 1 0x00).state.length
        = P.width := by
      split
      · exact absorb_any_length P hperm _ _ _ _ (by simp)
      · exact absorb_any_length P hperm _ _ _ _
          (absorb_any_length P hperm _ _ _ _ (by simp))
    have he1 : (absorb P (if ctr = [] then
        absorb_any P ⟨List.replicate P.width 0, true⟩
          (key ++ kid ++ [kid.length]) P.absorbRate 0x02
      else
        absorb_any P (absorb_any P ⟨List.replicate P.width 0, true⟩
          (key ++ kid ++ [kid.length]) P.absorbRate 0x02) ctr 1 0x00)
        ad).state.length = P.width :=
      absorb_any_length P hperm _ ad P.absorbRate 0x03 he0
  · exact open_seal P hperm hsr hsw pt _ he1
  · intro n
    rw [open_seal P hperm hsr hsw pt _ he1]

/-- Claim C1 witness. -/
theorem claim_c1_witness :
    ∃ e0, keyed_new xoodyakKeyedP [1] [] [] = some e0 ∧
      open_vec xoodyakKeyedP (absorb xoodyakKeyedP e0 [5])
          (seal_vec xoodyakKeyedP (absorb xoodyakKeyedP e0 [5]) [9, 9]).2
        = ((seal_vec xoodyakKeyedP (absorb xoodyakKeyedP e0 [5]) [9, 9]).1, some [9, 9]) ∧
      ∀ n, squeeze_mut xoodyakKeyedP
            (open_vec xoodyakKeyedP (absorb xoodyakKeyedP e0 [5])
              (seal_vec xoodyakKeyedP (absorb xoodyakKeyedP e0 [5]) [9, 9]).2).1 n
          = squeeze_mut xoodyakKeyedP
            (seal_vec xoodyakKeyedP (absorb xoodyakKeyedP e0 [5]) [9, 9]).1 n :=
  claim_c1 xoodyakKeyedP [1] [] [] [5] [9, 9] xoodoo_keyed_perm_good
    (by decide) (by decide) (by decide) (by decide) (by decide)
